import Mathlib

/-!
Shallow embedding of `train.py` from the lightning-kitti repository, together
with theorems settling the frozen claims about its specification.

The embedded parts are:
  * the label remapper `KITTI.encode_segmap` (lines 92-102), embedded both as a
    whole-mask transformation (2D numpy arrays flattened to a `List Int`; every
    numpy operation involved is elementwise, so flattening is faithful) and,
    via a proved commutation lemma, as a per-pixel function;
  * the train/validation split of `KITTI.__init__` (lines 66-72), embedded down
    to the Mersenne Twister generator backing Python's `random.Random(12345)`
    and the exact `Random.sample` / `_randbelow_with_getrandbits` algorithms of
    CPython, with fuel for the rejection loops;
  * the `F.cross_entropy(..., ignore_index=250)` call of
    `SegModel.training_step` (line 130), reduced to its mean reduction over
    non-ignored pixels with `NaN` (the 0/0 mean) modelled as `none`;
  * the resample-filter choice of the mask `resize` call in
    `KITTI.__getitem__` (line 83).
-/

set_option maxRecDepth 200000

namespace LightningKitti

/-! ## Label remapper (train.py lines 19-20, 55-56, 92-102) -/

/-- train.py line 55: `self.ignore_index = 250`. -/
def IGNORE_INDEX : Int := 250

/-- train.py line 19. -/
def DEFAULT_VOID_LABELS : List Int :=
  [0, 1, 2, 3, 4, 5, 6, 9, 10, 14, 15, 16, 18, 29, 30, -1]

/-- train.py line 20. -/
def DEFAULT_VALID_LABELS : List Int :=
  [7, 8, 11, 12, 13, 17, 19, 20, 21, 22, 23, 24, 25, 26, 27, 28, 31, 32, 33]

/-- train.py line 56: `self.class_map = dict(zip(self.valid_labels,
range(len(self.valid_labels))))`, read back at `self.class_map[validc]`.
A Python dict built by `zip` keeps the last binding of a duplicated key, hence
the fold returning the last index at which `c` occurs.  (In `encode_segmap`
this is only ever consulted at `c ∈ valid_labels`; the fallback 0 for a key
that is absent — where Python would raise `KeyError` — is never reached.) -/
def class_map (valid_labels : List Int) (c : Int) : Int :=
  valid_labels.enum.foldl (fun acc p => if p.2 = c then (p.1 : Int) else acc) 0

/-- numpy `mask[mask == c] = v`: elementwise replacement of value `c` by `v`. -/
def npSetEq (m : List Int) (c v : Int) : List Int :=
  m.map fun p => if p = c then v else p

/-- numpy `mask[mask > t] = v`: elementwise replacement of values above `t`. -/
def npSetGt (m : List Int) (t v : Int) : List Int :=
  m.map fun p => if t < p then v else p

/-- train.py lines 92-102 (`KITTI.encode_segmap`), value level: the void-label
pass, then the valid-label pass, then `mask[mask>18] = self.ignore_index`.
Each numpy statement mutates the array in place; this function returns the
array contents after the three passes. -/
def encode_segmap (void_labels valid_labels : List Int) (mask : List Int) : List Int :=
  let m1 := void_labels.foldl (fun mm voidc => npSetEq mm voidc IGNORE_INDEX) mask
  let m2 := valid_labels.foldl
    (fun mm validc => npSetEq mm validc (class_map valid_labels validc)) m1
  npSetGt m2 18 IGNORE_INDEX

/-- `encode_segmap` on the default `KITTI` label configuration. -/
def encode (mask : List Int) : List Int :=
  encode_segmap DEFAULT_VOID_LABELS DEFAULT_VALID_LABELS mask

/-- State-passing embedding of `encode_segmap`'s observable effect: the
argument array is the one mutable cell touched by the function, `return mask`
returns that same array, so the call yields (returned contents, contents of
the caller's array after the call) — both the result of the three passes. -/
def encode_segmapST (void_labels valid_labels : List Int) (mask : List Int) :
    List Int × List Int :=
  let m3 := encode_segmap void_labels valid_labels mask
  (m3, m3)

/-- Value of a single pixel after the two label passes of `encode_segmap`
(before the final `mask[mask>18]` pass).  The passes run left to right over
the label tuples, each comparing against the pixel's current value, exactly
as the sequential in-place numpy assignments do. -/
def prePixel (void_labels valid_labels : List Int) (x : Int) : Int :=
  let y1 := void_labels.foldl (fun a voidc => if a = voidc then IGNORE_INDEX else a) x
  valid_labels.foldl
    (fun a validc => if a = validc then class_map valid_labels validc else a) y1

/-- Per-pixel form of `encode_segmap` (the whole function is elementwise). -/
def encodePixelP (void_labels valid_labels : List Int) (x : Int) : Int :=
  if 18 < prePixel void_labels valid_labels x then IGNORE_INDEX
  else prePixel void_labels valid_labels x

/-- Per-pixel form of `encode`. -/
def encodePixel (x : Int) : Int :=
  encodePixelP DEFAULT_VOID_LABELS DEFAULT_VALID_LABELS x

/-! Commutation between the whole-mask and per-pixel forms. -/

theorem foldl_map_comm (g : Int → Int → Int) :
    ∀ (l : List Int) (m : List Int),
      l.foldl (fun mm c => mm.map fun p => g c p) m
        = m.map fun p => l.foldl (fun a c => g c a) p := by
  intro l
  induction l with
  | nil => intro m; simp
  | cons c t ih =>
    intro m
    simp only [List.foldl_cons]
    rw [ih (m.map fun p => g c p), List.map_map]
    rfl

theorem encode_segmap_eq_map (void_labels valid_labels : List Int)
    (mask : List Int) :
    encode_segmap void_labels valid_labels mask
      = mask.map (encodePixelP void_labels valid_labels) := by
  simp only [encode_segmap, npSetEq, npSetGt]
  rw [foldl_map_comm (fun c a => if a = c then IGNORE_INDEX else a)]
  rw [foldl_map_comm (fun c a => if a = c then class_map valid_labels c else a)]
  simp only [List.map_map]
  rfl

theorem encode_eq_map (mask : List Int) : encode mask = mask.map encodePixel :=
  encode_segmap_eq_map _ _ mask

/-! Helper lemmas about the label passes. -/

/-- A fold of conditional replacements leaves a value alone when it matches no
element of the list. -/
theorem foldl_if_eq_of_not_mem (f : Int → Int) :
    ∀ (l : List Int) (x : Int), (∀ c ∈ l, x ≠ c) →
      l.foldl (fun a c => if a = c then f c else a) x = x := by
  intro l
  induction l with
  | nil => intro x _; rfl
  | cons c t ih =>
    intro x hx
    simp only [List.foldl_cons]
    rw [if_neg (hx c (List.mem_cons_self c t)), ih x]
    intro d hd
    exact hx d (List.mem_cons_of_mem c hd)

/-- The void pass maps `IGNORE_INDEX` to itself, whatever labels remain. -/
theorem voidPass_ignore (l : List Int) :
    l.foldl (fun a voidc => if a = voidc then IGNORE_INDEX else a) IGNORE_INDEX
      = IGNORE_INDEX := by
  induction l with
  | nil => rfl
  | cons c t ih =>
    simp only [List.foldl_cons]
    by_cases h : IGNORE_INDEX = c
    · rw [if_pos h]; exact ih
    · rw [if_neg h]; exact ih

/-- A pixel whose raw value is a void label leaves the void pass as
`IGNORE_INDEX`. -/
theorem voidPass_of_mem :
    ∀ (l : List Int) (x : Int), x ∈ l →
      l.foldl (fun a voidc => if a = voidc then IGNORE_INDEX else a) x
        = IGNORE_INDEX := by
  intro l
  induction l with
  | nil => intro x hx; cases hx
  | cons c t ih =>
    intro x hx
    simp only [List.foldl_cons]
    by_cases h : x = c
    · rw [if_pos h]; exact voidPass_ignore t
    · rw [if_neg h]
      exact ih x ((List.mem_cons.mp hx).resolve_left h)

/-! ## Train/validation split (train.py lines 66-72) down to MT19937 -/

/-- Truncation to a 32-bit word. -/
def mask32 (x : Nat) : Nat := x % 4294967296

/-- Read the `i`-th 32-bit word of a generator state packed into one `Nat`. -/
def wget (s i : Nat) : Nat := (s >>> (32 * i)) &&& 4294967295

/-- Overwrite the `i`-th 32-bit word of a packed generator state. -/
def wset (s i v : Nat) : Nat :=
  s + (mask32 v <<< (32 * i)) - (wget s i <<< (32 * i))

/-- Strict application for kernel evaluation: forces the `Nat` argument to a
literal before passing it on.  Semantically the identity application, see
`strictApp_eq`; it only bounds the recursion depth of definitional reduction
of the long seeding loops. -/
def strictApp {a : Type} (x : Nat) (k : Nat → a) : a :=
  if x = 0 then k x else k x

theorem strictApp_eq {a : Type} (x : Nat) (k : Nat → a) : strictApp x k = k x := by
  unfold strictApp
  exact ite_self _

/-- Loop of `init_genrand` over the indices `1 .. 623`. -/
def igLoop : List Nat → Nat → Nat
  | [], mt => mt
  | i :: rest, mt =>
    let prev := wget mt (i - 1)
    strictApp (wset mt i (mask32 (1812433253 * (prev ^^^ (prev >>> 30)) + i)))
      (igLoop rest)

/-- Reference MT19937 `init_genrand` (as in CPython's `_randommodule.c`):
`mt[0] = s`, then `mt[i] = 1812433253 * (mt[i-1] xor (mt[i-1] >> 30)) + i`
for `i = 1 .. 623`, all mod 2^32. -/
def init_genrand (s : Nat) : Nat :=
  igLoop (List.range' 1 623) (wset 0 0 (mask32 s))

/-- One step of the first mixing loop of `init_by_array`. -/
def ibaStep1 (key : List Nat) (st : Nat × Nat × Nat) : Nat × Nat × Nat :=
  let mt := st.1
  let i := st.2.1
  let j := st.2.2
  let prev := wget mt (i - 1)
  let v := mask32 ((wget mt i ^^^ mask32 ((prev ^^^ (prev >>> 30)) * 1664525))
    + key.getD j 0 + j)
  let mt2 := wset mt i v
  let i2 := i + 1
  let j2 := j + 1
  let mt3 := if i2 ≥ 624 then wset mt2 0 (wget mt2 623) else mt2
  let i3 := if i2 ≥ 624 then 1 else i2
  let j3 := if j2 ≥ key.length then 0 else j2
  (mt3, i3, j3)

/-- One step of the second mixing loop of `init_by_array`; the `- i` is the
32-bit wraparound subtraction of the C code. -/
def ibaStep2 (st : Nat × Nat) : Nat × Nat :=
  let mt := st.1
  let i := st.2
  let prev := wget mt (i - 1)
  let v := mask32 ((wget mt i ^^^ mask32 ((prev ^^^ (prev >>> 30)) * 1566083941))
    + 4294967296 - i)
  let mt2 := wset mt i v
  let i2 := i + 1
  let mt3 := if i2 ≥ 624 then wset mt2 0 (wget mt2 623) else mt2
  let i3 := if i2 ≥ 624 then 1 else i2
  (mt3, i3)

/-- First mixing loop of `init_by_array`, iterated `max(624, len(key))`
times; the counter list only drives the iteration count. -/
def ibaLoop1 (key : List Nat) : List Nat → Nat × Nat × Nat → Nat × Nat × Nat
  | [], st => st
  | _ :: rest, st =>
    let st2 := ibaStep1 key st
    strictApp st2.1 fun mt => strictApp st2.2.1 fun i => strictApp st2.2.2 fun j =>
      ibaLoop1 key rest (mt, i, j)

/-- Second mixing loop of `init_by_array`, iterated 623 times. -/
def ibaLoop2 : List Nat → Nat × Nat → Nat × Nat
  | [], st => st
  | _ :: rest, st =>
    let st2 := ibaStep2 st
    strictApp st2.1 fun mt => strictApp st2.2 fun i => ibaLoop2 rest (mt, i)

/-- Reference MT19937 `init_by_array`, the seeding routine CPython applies to
an integer seed (split into 32-bit words, here `[12345]`). -/
def init_by_array (key : List Nat) : Nat :=
  let p1 := ibaLoop1 key (List.range (max 624 key.length)) (init_genrand 19650218, 1, 0)
  let p2 := ibaLoop2 (List.range 623) (p1.1, p1.2.1)
  wset p2.1 0 2147483648

/-- The MT19937 twist: regenerates all 624 words.  The sequential fold mirrors
the in-place C loop: for `kk ≥ 227` the word read at `(kk + 397) % 624` has
already been rewritten in this very twist, exactly as in C. -/
def twistLoop : List Nat → Nat → Nat
  | [], m => m
  | kk :: rest, m =>
    let y := (wget m kk &&& 2147483648) + (wget m ((kk + 1) % 624) &&& 2147483647)
    let mag := if y % 2 = 1 then 2567483615 else 0
    strictApp (wset m kk ((wget m ((kk + 397) % 624)) ^^^ (y >>> 1) ^^^ mag))
      (twistLoop rest)

def mtTwist (mt : Nat) : Nat := twistLoop (List.range 624) mt

/-- Generator state: packed word array plus the output index `mti`. -/
structure MT where
  mt : Nat
  mti : Nat
deriving DecidableEq

/-- State of `random.Random(12345)` right after seeding (`mti = 624`, so the
first draw triggers a twist). -/
def mtFromSeed (key : List Nat) : MT := ⟨init_by_array key, 624⟩

/-- `genrand_uint32`: twist when the 624 cached words are exhausted, then
output the next word through the tempering transform. -/
def genrand_uint32 (s : MT) : Nat × MT :=
  let s2 := if s.mti ≥ 624 then MT.mk (mtTwist s.mt) 0 else s
  let y0 := wget s2.mt s2.mti
  let y1 := y0 ^^^ (y0 >>> 11)
  let y2 := y1 ^^^ ((y1 <<< 7) &&& 2636928640)
  let y3 := y2 ^^^ ((y2 <<< 15) &&& 4022730752)
  let y4 := y3 ^^^ (y3 >>> 18)
  (y4, MT.mk s2.mt (s2.mti + 1))

/-- `getrandbits(k)` for `0 ≤ k ≤ 32`: top `k` bits of one 32-bit draw. -/
def getrandbits (k : Nat) (s : MT) : Nat × MT :=
  let p := genrand_uint32 s
  (p.1 >>> (32 - k), p.2)

/-- Python `int.bit_length`: least `k` with `n < 2 ^ k` (0 for `n = 0`).
Bounded search keeps the definition kernel-reducible. -/
def bit_length (n : Nat) : Nat :=
  ((List.range 64).find? (fun k => decide (n < 2 ^ k))).getD 64

/-- CPython `Random._randbelow_with_getrandbits`: draw `bit_length n` bits,
rejecting draws `≥ n`.  The unbounded `while` is given fuel; `none` means the
fuel ran out (the real loop terminates with probability 1). -/
def randbelowLoop (n k : Nat) : Nat → MT → Option (Nat × MT)
  | 0, _ => none
  | fuel + 1, s =>
    let p := getrandbits k s
    if p.1 < n then some (p.1, p.2) else randbelowLoop n k fuel p.2

/-- `randbelow n`: a uniform draw from `[0, n)` (fuel 1000 for the rejection
loop). -/
def randbelow (n : Nat) (s : MT) : Option (Nat × MT) :=
  randbelowLoop n (bit_length n) 1000 s

/-- The `while j in selected` reselection loop of `Random.sample`'s
set-tracking branch: draw until the value is fresh. -/
def drawUnselected (n : Nat) (acc : List Nat) : Nat → MT → Option (Nat × MT)
  | 0, _ => none
  | fuel + 1, s =>
    match randbelow n s with
    | none => none
    | some (j, s2) =>
      if j ∈ acc then drawUnselected n acc fuel s2 else some (j, s2)

/-- Set-tracking branch of `Random.sample` over `population = range(n)`
(`result[i] = population[j] = j`): `k` fresh draws in selection order. -/
def sampleSel (n : Nat) : Nat → List Nat → MT → Option (List Nat)
  | 0, acc, _ => some acc
  | k + 1, acc, s =>
    match drawUnselected n acc 1000 s with
    | none => none
    | some (j, s2) => sampleSel n k (acc ++ [j]) s2

/-- Pool-tracking branch of `Random.sample`: `j = randbelow(n - i);
result[i] = pool[j]; pool[j] = pool[n - i - 1]`, iterated for
`i = 0 .. k-1` (`rem = k - i` is the structural counter). -/
def samplePoolLoop (n : Nat) : Nat → Nat → List Nat → List Nat → MT → Option (List Nat)
  | 0, _, _, acc, _ => some acc
  | rem + 1, i, pool, acc, s =>
    match randbelow (n - i) s with
    | none => none
    | some (j, s2) =>
      let chosen := pool.getD j 0
      let pool2 := pool.set j (pool.getD (n - i - 1) 0)
      samplePoolLoop n rem (i + 1) pool2 (acc ++ [chosen]) s2

/-- Least `e` with `m ≤ 4 ^ e`: the value of CPython's
`_ceil(_log(k * 3, 4))` (for integer `k ≥ 1`, `3 * k` is never an exact power
of four, so the real-valued ceiling-log the float code approximates is exact).
Bounded search keeps the definition kernel-reducible. -/
def ceilLog4 (m : Nat) : Nat :=
  ((List.range 64).find? (fun e => decide (m ≤ 4 ^ e))).getD 64

/-- `setsize` of `Random.sample`: 21, plus the big-set table size when
`k > 5`. -/
def sampleSetsize (k : Nat) : Nat :=
  21 + (if 5 < k then 4 ^ ceilLog4 (k * 3) else 0)

/-- `Random.sample(range(n), k)`: pool-tracking branch when `n ≤ setsize`,
set-tracking branch otherwise. -/
def sample (n k : Nat) (s : MT) : Option (List Nat) :=
  if n ≤ sampleSetsize k then samplePoolLoop n k 0 (List.range n) [] s
  else sampleSel n k [] s

/-- train.py lines 66-72: `random_inst = random.Random(12345)`,
`idxs = random_inst.sample(range(n_items), n_items // 5)`, validation keeps
`idxs`, training keeps the complement of `idxs` in `range(n_items)` in
ascending order.  Result: `(train indices, validation indices)`. -/
def splitIdxs (n : Nat) : Option (List Nat × List Nat) :=
  match sample n (n / 5) (mtFromSeed [12345]) with
  | none => none
  | some idxs =>
    some ((List.range n).filter (fun i => decide (i ∉ idxs)), idxs)

/-! Specifications of the sampling loops. -/

theorem randbelowLoop_lt (n k : Nat) :
    ∀ (fuel : Nat) (s : MT) (j : Nat) (s2 : MT),
      randbelowLoop n k fuel s = some (j, s2) → j < n := by
  intro fuel
  induction fuel with
  | zero => intro s j s2 h; simp [randbelowLoop] at h
  | succ f ih =>
    intro s j s2 h
    simp only [randbelowLoop] at h
    split at h
    · rename_i hlt
      cases h
      exact hlt
    · exact ih _ _ _ h

theorem randbelow_lt (n : Nat) (s : MT) (j : Nat) (s2 : MT)
    (h : randbelow n s = some (j, s2)) : j < n :=
  randbelowLoop_lt n (bit_length n) 1000 s j s2 h

theorem drawUnselected_spec (n : Nat) (acc : List Nat) :
    ∀ (fuel : Nat) (s : MT) (j : Nat) (s2 : MT),
      drawUnselected n acc fuel s = some (j, s2) → j < n ∧ j ∉ acc := by
  intro fuel
  induction fuel with
  | zero => intro s j s2 h; simp [drawUnselected] at h
  | succ f ih =>
    intro s j s2 h
    simp only [drawUnselected] at h
    cases hrb : randbelow n s with
    | none => rw [hrb] at h; cases h
    | some q =>
      obtain ⟨j0, s0⟩ := q
      rw [hrb] at h
      simp only at h
      split at h
      · exact ih _ _ _ h
      · rename_i hnm
        cases h
        exact ⟨randbelow_lt n s j s2 hrb, hnm⟩

theorem sampleSel_spec (n : Nat) :
    ∀ (k : Nat) (acc : List Nat) (s : MT) (idxs : List Nat),
      sampleSel n k acc s = some idxs → (∀ a ∈ acc, a < n) →
      (∀ a ∈ idxs, a < n) ∧ idxs.length = acc.length + k := by
  intro k
  induction k with
  | zero =>
    intro acc s idxs h hacc
    simp only [sampleSel] at h
    cases h
    exact ⟨hacc, rfl⟩
  | succ k ih =>
    intro acc s idxs h hacc
    simp only [sampleSel] at h
    cases hdu : drawUnselected n acc 1000 s with
    | none => rw [hdu] at h; cases h
    | some q =>
      obtain ⟨j, s2⟩ := q
      rw [hdu] at h
      have hj := (drawUnselected_spec n acc 1000 s j s2 hdu).1
      have hrec := ih (acc ++ [j]) s2 idxs h (by
        intro a ha
        rcases List.mem_append.mp ha with h1 | h1
        · exact hacc a h1
        · have : a = j := by simpa using h1
          subst this; exact hj)
      refine ⟨hrec.1, ?_⟩
      rw [hrec.2, List.length_append]
      simp
      omega

theorem samplePoolLoop_spec (n : Nat) :
    ∀ (rem i : Nat) (pool acc : List Nat) (s : MT) (idxs : List Nat),
      samplePoolLoop n rem i pool acc s = some idxs →
      (∀ q ∈ pool, q < n) → (∀ a ∈ acc, a < n) →
      (∀ a ∈ idxs, a < n) ∧ idxs.length = acc.length + rem := by
  intro rem
  induction rem with
  | zero =>
    intro i pool acc s idxs h hpool hacc
    simp only [samplePoolLoop] at h
    cases h
    exact ⟨hacc, rfl⟩
  | succ rem ih =>
    intro i pool acc s idxs h hpool hacc
    simp only [samplePoolLoop] at h
    cases hrb : randbelow (n - i) s with
    | none => rw [hrb] at h; cases h
    | some q =>
      obtain ⟨j, s2⟩ := q
      rw [hrb] at h
      have hj : j < n - i := randbelow_lt (n - i) s j s2 hrb
      have hnpos : 0 < n := by omega
      have hgetD : ∀ m : Nat, pool.getD m 0 < n := by
        intro m
        by_cases hm : m < pool.length
        · rw [List.getD_eq_getElem pool 0 hm]
          exact hpool _ (List.getElem_mem hm)
        · rw [List.getD_eq_default pool 0 (by omega)]
          exact hnpos
      have hrec := ih (i + 1) (pool.set j (pool.getD (n - i - 1) 0))
        (acc ++ [pool.getD j 0]) s2 idxs h
        (by
          intro q hq
          rcases List.mem_or_eq_of_mem_set hq with h1 | h1
          · exact hpool q h1
          · subst h1; exact hgetD _)
        (by
          intro a ha
          rcases List.mem_append.mp ha with h1 | h1
          · exact hacc a h1
          · have : a = pool.getD j 0 := by simpa using h1
            subst this; exact hgetD _)
      refine ⟨hrec.1, ?_⟩
      rw [hrec.2, List.length_append]
      simp
      omega

theorem sample_spec (n k : Nat) (s : MT) (idxs : List Nat)
    (h : sample n k s = some idxs) :
    (∀ a ∈ idxs, a < n) ∧ idxs.length = k := by
  unfold sample at h
  split at h
  · have hs := samplePoolLoop_spec n k 0 (List.range n) [] s idxs h
      (fun q hq => List.mem_range.mp hq) (fun a ha => absurd ha (List.not_mem_nil a))
    simpa using hs
  · have hs := sampleSel_spec n k [] s idxs h
      (fun a ha => absurd ha (List.not_mem_nil a))
    simpa using hs

theorem splitIdxs_spec (n : Nat) (t v : List Nat) (h : splitIdxs n = some (t, v)) :
    (∀ a ∈ v, a < n) ∧ v.length = n / 5 ∧
      t = (List.range n).filter (fun i => decide (i ∉ v)) := by
  unfold splitIdxs at h
  cases hs : sample n (n / 5) (mtFromSeed [12345]) with
  | none => rw [hs] at h; cases h
  | some idxs =>
    rw [hs] at h
    have hsp := sample_spec n (n / 5) (mtFromSeed [12345]) idxs hs
    rw [Option.some.injEq, Prod.mk.injEq] at h
    obtain ⟨ht, hv⟩ := h
    subst hv
    exact ⟨hsp.1, hsp.2, ht.symm⟩

/-! ## Claim C2 and C3 -/

/-- Claim C2: for a directory listing with `n = 100` sample pairs and the
fixed seed 12345, the split assigns exactly 20 indices to validation and 80
to training, and in general `n / 5` indices to validation whenever the
sampling succeeds.  (Repeatability is by construction: `splitIdxs` is a pure
function of `n` and the seed only, mirroring the local
`random.Random(12345)` instance that is independent of the process's global
generator.) -/
theorem split_counts_100 :
    ((splitIdxs 100).map (fun q => (q.1.length, q.2.length)) = some (80, 20))
    ∧ ∀ n : Nat, (splitIdxs n).map (fun q => q.2.length)
        = (splitIdxs n).map (fun _ => n / 5) := by
  constructor
  · decide
  · intro n
    cases h : splitIdxs n with
    | none => rfl
    | some q =>
      obtain ⟨t, v⟩ := q
      have hlen := (splitIdxs_spec n t v h).2.1
      simp [hlen]

/-- Claim C3: whenever the split succeeds, the training indices and the
validation indices are disjoint and together are exactly the index range
`[0, n)`. -/
theorem split_disjoint_union (n : Nat) (t v : List Nat)
    (h : splitIdxs n = some (t, v)) :
    (∀ x, (x ∈ t ∨ x ∈ v) ↔ x < n) ∧ (∀ x, x ∈ t → x ∉ v) := by
  obtain ⟨hv, _, ht⟩ := splitIdxs_spec n t v h
  subst ht
  constructor
  · intro x
    constructor
    · rintro (hx | hx)
      · exact List.mem_range.mp (List.mem_filter.mp hx).1
      · exact hv x hx
    · intro hx
      by_cases hmem : x ∈ v
      · exact Or.inr hmem
      · refine Or.inl (List.mem_filter.mpr ⟨List.mem_range.mpr hx, ?_⟩)
        exact decide_eq_true hmem
  · intro x hx
    have hp := (List.mem_filter.mp hx).2
    simpa using hp

/-- Witness for `split_disjoint_union` at the concrete split of `n = 7`
(train `[0, 1, 2, 4, 5, 6]`, validation `[3]`). -/
theorem split_disjoint_union_witness :
    ((4 ∈ ([0, 1, 2, 4, 5, 6] : List Nat) ∨ 4 ∈ ([3] : List Nat)) ↔ 4 < 7)
    ∧ (4 ∈ ([0, 1, 2, 4, 5, 6] : List Nat) → 4 ∉ ([3] : List Nat)) := by
  have h := split_disjoint_union 7 [0, 1, 2, 4, 5, 6] [3] (by decide)
  exact ⟨h.1 4, h.2 4⟩

/-! ## Claims C1, C4, C5, C6: the label remapper -/

/-- A map leaves a list unchanged precisely when it fixes every element. -/
theorem map_eq_self_iff_fixed (f : Int → Int) :
    ∀ (l : List Int), l.map f = l ↔ ∀ p ∈ l, f p = p := by
  intro l
  induction l with
  | nil => simp
  | cons c t ih =>
    simp only [List.map_cons, List.cons.injEq, List.mem_cons]
    constructor
    · rintro ⟨h1, h2⟩ p hp
      rcases hp with rfl | hp
      · exact h1
      · exact (ih.mp h2) p hp
    · intro h
      exact ⟨h c (Or.inl rfl), ih.mpr (fun p hp => h p (Or.inr hp))⟩

/-- Range of a single encoded pixel whose raw value is at least -1 (every
`uint8` mask pixel qualifies): a dense class in `[0, 19)` or `IGNORE_INDEX`. -/
theorem encodePixel_range (x : Int) (hx : -1 ≤ x) :
    (0 ≤ encodePixel x ∧ encodePixel x < 19) ∨ encodePixel x = IGNORE_INDEX := by
  rcases le_or_lt x 33 with h33 | h33
  · interval_cases x <;> decide
  · right
    have hvoid : DEFAULT_VOID_LABELS.foldl
        (fun a voidc => if a = voidc then IGNORE_INDEX else a) x = x := by
      apply foldl_if_eq_of_not_mem
      intro c hc
      fin_cases hc <;> omega
    have hvalid : DEFAULT_VALID_LABELS.foldl
        (fun a validc => if a = validc then class_map DEFAULT_VALID_LABELS validc else a)
        x = x := by
      apply foldl_if_eq_of_not_mem
      intro c hc
      fin_cases hc <;> omega
    simp only [encodePixel, encodePixelP, prePixel]
    rw [hvoid, hvalid]
    rw [if_pos (by omega : (18 : Int) < x)]

/-- Claim C1, counterexample to the claim as stated: on a mask containing the
arbitrary integer -2 (not a void label, not a valid label, and not caught by
the signed comparison `mask > 18`), `encode` returns -2 unchanged, which is
neither a dense class in `[0, 19)` nor `IGNORE_INDEX`. -/
theorem encode_not_total_on_negatives :
    encode [-2] = [-2]
      ∧ ¬(((0 : Int) ≤ -2 ∧ (-2 : Int) < 19) ∨ (-2 : Int) = IGNORE_INDEX) := by
  decide

/-- Claim C1 (amended): for every input mask all of whose pixel values are at
least -1 — in particular any mask read from an 8-bit image, the only masks the
loader produces — every pixel of `encode mask` lies in `[0, 19)` or equals `IGNORE_INDEX`.
Pixels below -1 are returned unchanged, so totality fails for arbitrary
integers. -/
theorem encode_range (m : List Int) (hm : ∀ p ∈ m, -1 ≤ p) :
    ∀ q ∈ encode m, (0 ≤ q ∧ q < 19) ∨ q = IGNORE_INDEX := by
  intro q hq
  rw [encode_eq_map] at hq
  obtain ⟨x, hx, rfl⟩ := List.mem_map.mp hq
  exact encodePixel_range x (hm x hx)

/-- Witness for `encode_range` on the concrete mask `[7, 34, -1]`. -/
theorem encode_range_witness :
    ((0 : Int) ≤ 0 ∧ (0 : Int) < 19) ∨ (0 : Int) = IGNORE_INDEX :=
  encode_range [7, 34, -1] (by decide) 0 (by decide)

/-- Claim C4, counterexample to idempotence as stated: `encode [7] = [0]`
(every valid-label value of `[7]` maps within range), but dense class 0 is
itself a void label, so a second application sends it to 250. -/
theorem encode_not_idempotent :
    encode [7] = [0] ∧ encode (encode [7]) = [250]
      ∧ encode (encode [7]) ≠ encode [7] := by
  decide

/-- A raw value above every label (all default labels are at most 33) passes
the two label passes untouched and is clamped by the final pass. -/
theorem encodePixel_ignore_of_gt33 (x : Int) (hx : 33 < x) :
    encodePixel x = IGNORE_INDEX := by
  have hvoid : DEFAULT_VOID_LABELS.foldl
      (fun a voidc => if a = voidc then IGNORE_INDEX else a) x = x := by
    apply foldl_if_eq_of_not_mem
    intro c hc
    fin_cases hc <;> omega
  have hvalid : DEFAULT_VALID_LABELS.foldl
      (fun a validc => if a = validc then class_map DEFAULT_VALID_LABELS validc else a)
      x = x := by
    apply foldl_if_eq_of_not_mem
    intro c hc
    fin_cases hc <;> omega
  simp only [encodePixel, encodePixelP, prePixel]
  rw [hvoid, hvalid]
  rw [if_pos (by omega : (18 : Int) < x)]

/-- A raw value below every label (all default labels are at least -1) passes
the two label passes untouched and, being at most 18, survives the final
pass: values below -1 are fixed points of the encoder. -/
theorem encodePixel_fixed_of_lt_neg1 (x : Int) (hx : x < -1) :
    encodePixel x = x := by
  have hvoid : DEFAULT_VOID_LABELS.foldl
      (fun a voidc => if a = voidc then IGNORE_INDEX else a) x = x := by
    apply foldl_if_eq_of_not_mem
    intro c hc
    fin_cases hc <;> omega
  have hvalid : DEFAULT_VALID_LABELS.foldl
      (fun a validc => if a = validc then class_map DEFAULT_VALID_LABELS validc else a)
      x = x := by
    apply foldl_if_eq_of_not_mem
    intro c hc
    fin_cases hc <;> omega
  simp only [encodePixel, encodePixelP, prePixel]
  rw [hvoid, hvalid]
  rw [if_neg (by omega : ¬ (18 : Int) < x)]

/-- The fixed points of the per-pixel encoder are exactly `IGNORE_INDEX` and
the values below -1: every value in `[-1, 33]` is moved by one of the passes
(checked case by case), and every value above 33 is clamped to 250. -/
theorem encodePixel_fixed_iff (p : Int) :
    encodePixel p = p ↔ p = IGNORE_INDEX ∨ p < -1 := by
  constructor
  · intro h
    by_contra hc
    push_neg at hc
    obtain ⟨h250, hge⟩ := hc
    rcases le_or_lt p 33 with h33 | h33
    · interval_cases p <;> revert h <;> decide
    · have hig := encodePixel_ignore_of_gt33 p h33
      rw [h] at hig
      exact h250 hig
  · intro h
    rcases h with h | h
    · rw [h]; decide
    · exact encodePixel_fixed_of_lt_neg1 p h

/-- Claim C4 (amended): `encode` is not idempotent on its own output; its
stable fixed points are exactly `IGNORE_INDEX` and the untouched raw values
below -1, while with the default label sets every dense class index `0 .. 18`
collides with a void or valid raw label and is re-mapped by a second pass.
Hence `encode (encode m) = encode m` holds if and only if every pixel of
`encode m` equals `IGNORE_INDEX` or lies below -1. -/
theorem encode_idempotent_iff (m : List Int) :
    encode (encode m) = encode m
      ↔ ∀ p ∈ encode m, p = IGNORE_INDEX ∨ p < -1 := by
  rw [encode_eq_map (encode m), map_eq_self_iff_fixed encodePixel (encode m)]
  exact ⟨fun h p hp => (encodePixel_fixed_iff p).mp (h p hp),
    fun h p hp => (encodePixel_fixed_iff p).mpr (h p hp)⟩

/-- Witness for `encode_idempotent_iff` at the all-void mask `[0]`, whose
encoding `[250]` satisfies the fixed-point condition. -/
theorem encode_idempotent_witness : encode (encode [0]) = encode [0] :=
  (encode_idempotent_iff [0]).mpr (by decide)

/-- Claim C5, counterexample to the claim as stated: with the overlapping
configuration `void_labels = valid_labels = [5]` the dict maps 5 to dense
class 0, yet a mask pixel with raw value 5 encodes to 250, not to 0: the
void pass runs first and rewrites the pixel in place, so the valid pass no
longer matches its raw value. -/
theorem overlap_void_wins_counterexample :
    encode_segmap [5] [5] [5] = [250] ∧ class_map [5] 5 = 0
      ∧ encode_segmap [5] [5] [5] ≠ [class_map [5] 5] := by
  decide

/-- Claim C5 (amended): when `void_labels` and `valid_labels` overlap, the
void mapping wins: any pixel whose raw value is a void label encodes to
`IGNORE_INDEX` (whether or not it is also a valid label), provided
`IGNORE_INDEX` itself is not a valid label. -/
theorem overlap_pixel_ignore (voids valids : List Int) (x : Int)
    (hx : x ∈ voids) (hni : IGNORE_INDEX ∉ valids) :
    encodePixelP voids valids x = IGNORE_INDEX := by
  have h1 := voidPass_of_mem voids x hx
  have h2 : valids.foldl
      (fun a validc => if a = validc then class_map valids validc else a)
      IGNORE_INDEX = IGNORE_INDEX := by
    apply foldl_if_eq_of_not_mem
    intro c hc heq
    exact hni (heq ▸ hc)
  simp only [encodePixelP, prePixel]
  rw [h1, h2]
  rw [if_pos (by decide : (18 : Int) < IGNORE_INDEX)]

/-- Witness for `overlap_pixel_ignore` at `voids = valids = [5]`, `x = 5`. -/
theorem overlap_pixel_witness : encodePixelP [5] [5] 5 = IGNORE_INDEX :=
  overlap_pixel_ignore [5] [5] 5 (by decide) (by decide)

/-- Claim C6: with the default 19-entry valid-label sequence, raw value 7
encodes to dense class 0, raw value 11 to dense class 2, and the void label
2 to `IGNORE_INDEX` (250). -/
theorem encode_default_values :
    DEFAULT_VALID_LABELS.length = 19
      ∧ encodePixel 7 = 0 ∧ encodePixel 11 = 2 ∧ encodePixel 2 = IGNORE_INDEX
      ∧ encode [7, 11, 2] = [0, 2, IGNORE_INDEX] := by
  decide

/-! ## Claim C8: mutation versus value purity of encode_segmap -/

/-- Claim C8, counterexample to the claim as stated: after calling
`encode_segmap` on an array holding `[7]`, the caller's array holds `[0]` —
the function rewrites its argument in place (and returns that same array,
not a fresh one). -/
theorem encode_mutates_argument :
    (encode_segmapST DEFAULT_VOID_LABELS DEFAULT_VALID_LABELS [7]).2 ≠ [7] := by
  decide

/-- Claim C8 (amended): `encode_segmap` is deterministic and value-pure — the
returned contents and the final contents of the argument array are the same
pointwise function of the input values — but it mutates its argument in place
rather than leaving it unchanged; the loader stays safe only because
`__getitem__` passes a freshly allocated array on every call. -/
theorem encode_st_value_pure (void_labels valid_labels : List Int) (m : List Int) :
    encode_segmapST void_labels valid_labels m
      = (m.map (encodePixelP void_labels valid_labels),
          m.map (encodePixelP void_labels valid_labels)) := by
  simp only [encode_segmapST]
  rw [encode_segmap_eq_map]

/-! ## Claim C9: the all-ignored training step loss -/

/-- Semantics of `F.cross_entropy(out, mask, ignore_index=250)` with the
default mean reduction, as invoked by `SegModel.training_step` (train.py line
130): the per-pixel losses are summed over exactly the pixels whose target
differs from `ignore`, divided by the number of such pixels.  With no
contributing pixel the reduction computes `0 / 0`, which in IEEE arithmetic
is NaN — modelled here as `none` (so `some q` means a real loss value `q`).
The numeric per-pixel losses are abstract inputs: their values never matter
for the claims below. -/
def cross_entropy_mean (losses : List Rat) (target : List Int) (ignore : Int) :
    Option Rat :=
  let contrib := (losses.zip target).filter (fun q => decide (q.2 ≠ ignore))
  if contrib.length = 0 then none
  else some ((contrib.map (fun q => q.1)).sum / contrib.length)

/-- train.py line 130: `loss_val = F.cross_entropy(out, mask, ignore_index=250)`. -/
def training_step_loss (losses : List Rat) (mask : List Int) : Option Rat :=
  cross_entropy_mean losses mask 250

/-- Claim C9, counterexample to the claim as stated: on a batch whose mask is
entirely 250 the training-step loss is not the real number zero — no pixel
contributes to numerator or denominator, so the mean reduction is 0/0 (NaN),
not `some 0`. -/
theorem all_ignore_loss_not_zero :
    training_step_loss [1, 1] [250, 250] ≠ some 0 := by
  decide

/-- Claim C9 (amended): on any batch in which every mask pixel equals 250 the
training-step loss is NaN (modelled `none`), for every assignment of
per-pixel losses: all pixels are excluded from the loss computation, leaving
an empty mean. -/
theorem all_ignore_loss_nan (losses : List Rat) (mask : List Int)
    (hm : ∀ p ∈ mask, p = 250) :
    training_step_loss losses mask = none := by
  simp only [training_step_loss, cross_entropy_mean]
  have hnil : (losses.zip mask).filter (fun q => decide (q.2 ≠ 250)) = [] := by
    apply List.filter_eq_nil_iff.mpr
    intro q hq
    obtain ⟨a, b⟩ := q
    have hb := (List.of_mem_zip hq).2
    simp [hm b hb]
  rw [hnil]
  rfl

/-- Witness for `all_ignore_loss_nan` at a concrete all-ignored batch. -/
theorem all_ignore_loss_nan_witness :
    training_step_loss [1, 1, 1] [250, 250, 250] = none :=
  all_ignore_loss_nan [1, 1, 1] [250, 250, 250] (by decide)

/-! ## Claim C7: the resample filter used for masks -/

/-- PIL resampling filter code `Image.NEAREST`. -/
def Image_NEAREST : Nat := 0

/-- PIL resampling filter code `Image.BICUBIC`. -/
def Image_BICUBIC : Nat := 3

/-- Pillow's `Image.resize(size, resample=BICUBIC, box=None, reducing_gap=None)`:
the `resample` parameter defaults to bicubic when omitted (every Pillow
release this repository can run on, i.e. since 2.7.0). -/
def Image_resize_default_resample : Nat := Image_BICUBIC

/-- train.py line 83: `mask = mask.resize(self.img_size)` passes no `resample`
argument, so the mask is resized with the library default filter. -/
def getitem_mask_resample : Nat := Image_resize_default_resample

/-- Claim C7 (code bug): the mask resize of the sample loader does not use
nearest-neighbor resampling — it inherits PIL's default bicubic filter, which
interpolates between neighboring label values and can invent class IDs absent
from the source mask (the spec itself states nearest-neighbor is required for
masks). -/
theorem mask_resize_filter_not_nearest :
    getitem_mask_resample = Image_BICUBIC
      ∧ getitem_mask_resample ≠ Image_NEAREST := by
  decide

/-! ## Claim C10: the hard-coded safety-net threshold 18 -/

/-- A 22-entry valid-label configuration: the 19 defaults followed by three
extra raw ids, as would arise from an updated dataset. -/
def EXTENDED_VALID_LABELS : List Int := DEFAULT_VALID_LABELS ++ [34, 35, 36]

/-- Claim C10: the final pass `mask[mask>18] = self.ignore_index` replaces
exactly the pixels whose value after the two label passes exceeds the fixed
constant 18 — whatever label configuration is in use — and consequently with
the 22-entry configuration the raw value 34, although mapped by `class_map`
to dense class 19, leaves `encode_segmap` as `IGNORE_INDEX`. -/
theorem final_pass_threshold18 (voids valids : List Int) (x : Int) :
    (18 < prePixel voids valids x → encodePixelP voids valids x = IGNORE_INDEX)
    ∧ (prePixel voids valids x ≤ 18 →
        encodePixelP voids valids x = prePixel voids valids x)
    ∧ (class_map EXTENDED_VALID_LABELS 34 = 19
        ∧ prePixel DEFAULT_VOID_LABELS EXTENDED_VALID_LABELS 34 = 19
        ∧ encode_segmap DEFAULT_VOID_LABELS EXTENDED_VALID_LABELS [34]
            = [IGNORE_INDEX]) := by
  refine ⟨?_, ?_, by decide⟩
  · intro h
    simp only [encodePixelP]
    rw [if_pos h]
  · intro h
    simp only [encodePixelP]
    rw [if_neg (by omega)]

/-- Witness for `final_pass_threshold18`, discharging both implications at
concrete pixels: an empty label configuration leaves raw values untouched, so
19 is clamped to `IGNORE_INDEX` and 5 survives. -/
theorem final_pass_threshold18_witness :
    encodePixelP [] [] 19 = IGNORE_INDEX
      ∧ encodePixelP [] [] 5 = prePixel [] [] 5 :=
  ⟨(final_pass_threshold18 [] [] 19).1 (by decide),
    (final_pass_threshold18 [] [] 5).2.1 (by decide)⟩

end LightningKitti
